import Mathlib

/-!
# Verification of `DynamicBFS.cpp`

A shallow embedding of the breadth-first-search river-crossing solver in
`src/DynamicBFS.cpp`, together with proofs about its behaviour.

C++ `short` values (states and actions) are modelled as `Int`; every value the
program manipulates lies in `[0, 255]`, far inside the `short` range, so the
implicit `int`-to-`short` truncations in the source are the identity and the
`Int` bitwise operators coincide with the C++ ones.

The source's `Node*` pointers are modelled by giving every allocated node a
unique natural-number id (`new` never returns the address of a live object,
and all nodes stay live until the search returns).  The C++ frontier
deduplication test `find(frontier.begin(), frontier.end(), child)` compares
those pointers, which is why the embedding compares node ids — not states —
at that spot.
-/

namespace DynamicBFS

/-! ## The bit-level state encoding (the `#define`s of the source) -/

def RW : Int := 0x01
def RG : Int := 0x02
def RC : Int := 0x04
def RP : Int := 0x08
def LW : Int := 0x10
def LG : Int := 0x20
def LC : Int := 0x40
def LP : Int := 0x80
def RPCGW : Int := 0x0F
def PCGWR : Int := 0xF0
def PGRCW : Int := 0xA5
def CWRPG : Int := 0x5A
def PCGRW : Int := 0xE1
def WRPCG : Int := 0x1E
def CRPGW : Int := 0x4B
def PGWRC : Int := 0xB4
def GRPCW : Int := 0x2D
def PCWRG : Int := 0xD2

/-! ## The `Problem` abstraction

The C++ `Problem` is an abstract class with virtual `actions`/`result` and a
concrete `goal_test`; `BFSProblem` supplies the virtual members.  The
embedding packages the data and the two virtual functions in one structure. -/

structure Problem where
  initial : Int
  goal : Int
  actions : Int → List Int
  result : Int → Int → Int

/-- `bool Problem::goal_test(short g) const { return goal == g; }` -/
def Problem.goal_test (p : Problem) (g : Int) : Bool := p.goal == g

/-! ## Search-tree nodes

`Node` stores its state, the action that produced it, and the cached solution
path `soln`.  The C++ parent pointer is only ever read inside the constructor
(to copy the parent's `soln`), so the embedding stores the derived `soln`
directly; `id` models the node's allocation address (see the header note). -/

structure Node where
  state : Int
  action : Int
  soln : List Int
  id : Nat
deriving DecidableEq, Repr, Inhabited

/-- `Node::Node(short s, short a, Node* p)`: copies the parent's solution path
when a parent exists, then in every case appends the incoming action —
including the sentinel `a = 0` of the root. -/
def mkNode (s a : Int) (parent : Option Node) (id : Nat) : Node :=
  { state := s
    action := a
    soln := (match parent with
             | some q => q.soln
             | none => []) ++ [a]
    id := id }

/-- `deque<short> Node::solution()` -/
def Node.solution (n : Node) : List Int := n.soln

/-- `Node* childNode(Problem* prob, Node* parent, short action)` -/
def childNode (p : Problem) (parent : Node) (action : Int) (id : Nat) : Node :=
  mkNode (p.result parent.state action) action (some parent) id

/-! ## The BFS engine

`expand` is the inner `for(short action : p->actions(node->getState()))` loop
of `BFS`: it walks the action list, allocating one child per action (`nid` is
the allocation counter), and either

* returns the child's solution (`Sum.inl`) when an unseen child passes the
  goal test — the early exit `return child->solution();` — or
* returns the grown frontier and counter (`Sum.inr`) when the list is done.

The guard mirrors the source exactly: the first conjunct is the pointer search
over `frontier` (ids model pointers), the second the state search over
`explored`. -/

def expand (p : Problem) (node : Node) :
    List Int → List Node → List Int → Nat → Sum (List Int) (List Node × Nat)
  | [], frontier, _, nid => .inr (frontier, nid)
  | a :: rest, frontier, explored, nid =>
    let child := childNode p node a nid
    if (∀ m ∈ frontier, m.id ≠ child.id) ∧ child.state ∉ explored then
      if p.goal_test child.state then .inl child.solution
      else expand p node rest (frontier ++ [child]) explored (nid + 1)
    else expand p node rest frontier explored (nid + 1)

/-- The `while(!frontier.empty())` loop of `BFS`, run with explicit fuel
(`none` = fuel ran out with the loop still going; the C++ loop just keeps
running).  The second component of the result is the final contents of the
`explored` deque, which the source pushes to exactly once per dequeued node,
immediately before invoking `actions` on that node's state. -/
def bfsLoop (p : Problem) (solution : List Int) :
    Nat → List Node → List Int → Nat → Option (List Int) × List Int
  | _, [], explored, _ => (some solution, explored)
  | 0, _ :: _, explored, _ => (none, explored)
  | fuel + 1, node :: rest, explored, nid =>
    match expand p node (p.actions node.state) rest (explored ++ [node.state]) nid with
    | .inl s => (some s, explored ++ [node.state])
    | .inr (frontier', nid') => bfsLoop p solution fuel frontier' (explored ++ [node.state]) nid'

/-- `deque<short> BFS(BFSProblem* p)` together with the final `explored`
trace.  The root node is allocated first (id `0`), `solution` is set to the
root's path when the initial state already passes the goal test (the source
does *not* return early there), and then the loop runs. -/
def bfsRun (p : Problem) (fuel : Nat) : Option (List Int) × List Int :=
  let root : Node := mkNode p.initial 0 none 0
  let solution : List Int := if p.goal_test root.state then root.solution else []
  bfsLoop p solution fuel [root] [] 1

/-- The value `BFS` returns (`none` = out of fuel). -/
def BFS (p : Problem) (fuel : Nat) : Option (List Int) := (bfsRun p fuel).1

/-! ## The concrete river-crossing problem (`BFSProblem`) -/

/-- `deque<short> BFSProblem::actions(short state)`: the hardcoded transition
table, an if/else-if chain over nine states; every other state gets `[]`.
(`Int.lor` is the C++ `|` on the in-range values involved.) -/
def riverActions (state : Int) : List Int :=
  if state = RPCGW then [Int.lor LP LG]
  else if state = PGRCW then [RP, Int.lor RP RG]
  else if state = PCGRW then [Int.lor RP RC, Int.lor RP RG]
  else if state = CRPGW then [Int.lor LP LG, Int.lor LP LW]
  else if state = PCWRG then [Int.lor RP RC, Int.lor RP RW, RP]
  else if state = WRPCG then [Int.lor LP LC, Int.lor LP LG]
  else if state = CWRPG then [LP, Int.lor LP LG]
  else if state = GRPCW then [LP, Int.lor LP LC, Int.lor LP LW]
  else if state = PGWRC then [Int.lor RP RG, Int.lor RP RW]
  else []

/-- `short BFSProblem::result(short state, short action)`: turns on the action
bits and turns off the matching bits of the other bank, e.g.
`state = state & ~RP & ~RC | LP | LC;` becomes
`Int.lor (Int.lor (Int.land (Int.land state (Int.lnot RP)) (Int.lnot RC)) LP) LC`
(C++ `&` binds tighter than `|`, matching this association); any unrecognised
action falls through and the state is returned unchanged. -/
def riverResult (state action : Int) : Int :=
  if action = LP then Int.lor (Int.land state (Int.lnot RP)) LP
  else if action = Int.lor LP LC then
    Int.lor (Int.lor (Int.land (Int.land state (Int.lnot RP)) (Int.lnot RC)) LP) LC
  else if action = Int.lor LP LG then
    Int.lor (Int.lor (Int.land (Int.land state (Int.lnot RP)) (Int.lnot RG)) LP) LG
  else if action = Int.lor LP LW then
    Int.lor (Int.lor (Int.land (Int.land state (Int.lnot RP)) (Int.lnot RW)) LP) LW
  else if action = RP then Int.lor (Int.land state (Int.lnot LP)) RP
  else if action = Int.lor RP RC then
    Int.lor (Int.lor (Int.land (Int.land state (Int.lnot LP)) (Int.lnot LC)) RP) RC
  else if action = Int.lor RP RG then
    Int.lor (Int.lor (Int.land (Int.land state (Int.lnot LP)) (Int.lnot LG)) RP) RG
  else if action = Int.lor RP RW then
    Int.lor (Int.lor (Int.land (Int.land state (Int.lnot LP)) (Int.lnot LW)) RP) RW
  else state

/-- `new BFSProblem(RPCGW, PCGWR)` as constructed in `main`. -/
def riverCrossing : Problem :=
  { initial := RPCGW
    goal := PCGWR
    actions := riverActions
    result := riverResult }

/-! ### Kernel-computable twin of `riverResult`

`Int.land`/`Int.lor` over a negative operand go through `Nat.ldiff`, which the
kernel cannot evaluate quickly, so concrete runs of the search are computed
through a twin of `result` built from the accelerated operations `Nat.xor`,
`Nat.land` and `Nat.lor`; `riverResultC_eq` below proves the twin *equal* to
`riverResult`, so every concrete evaluation transports to the real
embedding. -/

/-- `Nat.ldiff m n` computed as `m ^^^ (m &&& n)` (see `ldiff_eq_xor_land`). -/
def ldiffC (m n : Nat) : Nat := Nat.xor m (Nat.land m n)

/-- `Int.land` with `Nat.ldiff` replaced by its computable form. -/
def landC : Int → Int → Int
  | .ofNat m, .ofNat n => .ofNat (Nat.land m n)
  | .ofNat m, .negSucc n => .ofNat (ldiffC m n)
  | .negSucc m, .ofNat n => .ofNat (ldiffC n m)
  | .negSucc m, .negSucc n => .negSucc (Nat.lor m n)

/-- `Int.lor` with `Nat.ldiff` replaced by its computable form. -/
def lorC : Int → Int → Int
  | .ofNat m, .ofNat n => .ofNat (Nat.lor m n)
  | .ofNat m, .negSucc n => .negSucc (ldiffC n m)
  | .negSucc m, .ofNat n => .negSucc (ldiffC m n)
  | .negSucc m, .negSucc n => .negSucc (Nat.land m n)

/-- `riverResult` with the computable bitwise operations. -/
def riverResultC (state action : Int) : Int :=
  if action = LP then lorC (landC state (Int.lnot RP)) LP
  else if action = Int.lor LP LC then
    lorC (lorC (landC (landC state (Int.lnot RP)) (Int.lnot RC)) LP) LC
  else if action = Int.lor LP LG then
    lorC (lorC (landC (landC state (Int.lnot RP)) (Int.lnot RG)) LP) LG
  else if action = Int.lor LP LW then
    lorC (lorC (landC (landC state (Int.lnot RP)) (Int.lnot RW)) LP) LW
  else if action = RP then lorC (landC state (Int.lnot LP)) RP
  else if action = Int.lor RP RC then
    lorC (lorC (landC (landC state (Int.lnot LP)) (Int.lnot LC)) RP) RC
  else if action = Int.lor RP RG then
    lorC (lorC (landC (landC state (Int.lnot LP)) (Int.lnot LG)) RP) RG
  else if action = Int.lor RP RW then
    lorC (lorC (landC (landC state (Int.lnot LP)) (Int.lnot LW)) RP) RW
  else state

/-- `riverCrossing` with the computable `result` twin. -/
def riverCrossingC : Problem :=
  { initial := RPCGW
    goal := PCGWR
    actions := riverActions
    result := riverResultC }

/-! ## Path semantics

Specification-level vocabulary used to state the claims: folding a list of
actions through `result`, validity of such a list with respect to `actions`,
and reachability. -/

/-- Fold a list of actions through `p.result`, starting at `s`. -/
def runFrom (p : Problem) : Int → List Int → Int
  | s, [] => s
  | s, a :: rest => runFrom p (p.result s a) rest

/-- Every action of the list is legal (returned by `p.actions`) at the state
where it is applied. -/
def ValidFrom (p : Problem) : Int → List Int → Prop
  | _, [] => True
  | s, a :: rest => a ∈ p.actions s ∧ ValidFrom p (p.result s a) rest

/-- `t` can be reached from `s` by a valid action sequence. -/
def Reaches (p : Problem) (s t : Int) : Prop :=
  ∃ acts, ValidFrom p s acts ∧ runFrom p s acts = t

/-- The state space reachable from the initial state is finite. -/
def FiniteSpace (p : Problem) : Prop :=
  ∃ R : Finset Int, ∀ z, Reaches p p.initial z → z ∈ R

/-- What `BFS` actually produces whenever it exits through the in-loop
`return child->solution();`: the sentinel `0` followed by a valid action
sequence leading from the initial state to a goal state, of minimal length
among all goal-reaching valid sequences; moreover the goal then differs from
the initial state. -/
def GoodSolution (p : Problem) (r : List Int) : Prop :=
  p.goal ≠ p.initial ∧
  (∃ acts, r = 0 :: acts ∧ ValidFrom p p.initial acts ∧
    p.goal_test (runFrom p p.initial acts) = true) ∧
  (∀ acts, ValidFrom p p.initial acts → p.goal_test (runFrom p p.initial acts) = true →
    r.length ≤ acts.length + 1)

/-- Chain of `childNode` constructions below a given node, one per listed
action; `i` is the allocation counter.  The node produced after `d` steps sits
at depth `d` below the start node. -/
def descend (p : Problem) : Node → List Int → Nat → Node
  | n, [], _ => n
  | n, a :: rest, i => descend p (childNode p n a i) rest (i + 1)

/-- The nine states the `actions` if/else-if chain recognises, in source
order. -/
def riverStates : List Int :=
  [RPCGW, PGRCW, PCGRW, CRPGW, PCWRG, WRPCG, CWRPG, GRPCW, PGWRC]

/-- The eight move codes the `result` if/else-if chain recognises, in source
order. -/
def moveCodes : List Int :=
  [LP, Int.lor LP LC, Int.lor LP LG, Int.lor LP LW,
   RP, Int.lor RP RC, Int.lor RP RG, Int.lor RP RW]

/-- The seven real actions of the river-crossing solution that `BFS` finds
(goat left, peasant right, cabbage left, goat right, wolf left, peasant
right, goat left). -/
def rcActs : List Int := [160, 8, 192, 10, 144, 8, 160]

/-- Value of bit `i` of `s` (for `0 ≤ s`), as an integer `0` or `1`. -/
def bitOf (s : Int) (i : Nat) : Int := (s / 2 ^ i) % 2

/-- The state invariant of the puzzle encoding: the value fits in the low
byte and, for each of the four entities (wolf bits 0/4, goat 1/5, cabbage
2/6, peasant 3/7), exactly one of the right-bank and left-bank bits is set. -/
def validState (s : Int) : Prop :=
  0 ≤ s ∧ s < 256 ∧
    bitOf s 0 + bitOf s 4 = 1 ∧ bitOf s 1 + bitOf s 5 = 1 ∧
    bitOf s 2 + bitOf s 6 = 1 ∧ bitOf s 3 + bitOf s 7 = 1

/-- The sixteen values satisfying `validState`. -/
def sixteenStates : List Int :=
  [15, 30, 45, 60, 75, 90, 105, 120, 135, 150, 165, 180, 195, 210, 225, 240]

instance (s : Int) : Decidable (validState s) :=
  inferInstanceAs (Decidable (0 ≤ s ∧ s < 256 ∧
    bitOf s 0 + bitOf s 4 = 1 ∧ bitOf s 1 + bitOf s 5 = 1 ∧
    bitOf s 2 + bitOf s 6 = 1 ∧ bitOf s 3 + bitOf s 7 = 1))

def decValidFrom (p : Problem) : (s : Int) → (acts : List Int) → Decidable (ValidFrom p s acts)
  | _, [] => .isTrue trivial
  | s, a :: rest =>
    match decValidFrom p (p.result s a) rest with
    | .isTrue h =>
      if ha : a ∈ p.actions s then .isTrue ⟨ha, h⟩ else .isFalse fun hc => ha hc.1
    | .isFalse h => .isFalse fun hc => h hc.2

instance (p : Problem) (s : Int) (acts : List Int) : Decidable (ValidFrom p s acts) :=
  decValidFrom p s acts

/-! ### Small synthetic problems used as concrete test inputs -/

/-- Initial state is already the goal; no actions anywhere; `result` echoes
its state argument. -/
def idleGoalProblem : Problem :=
  { initial := 0, goal := 0, actions := fun _ => [], result := fun s _ => s }

/-- Like `idleGoalProblem` but on state `7`. -/
def echoProblem : Problem :=
  { initial := 7, goal := 7, actions := fun _ => [], result := fun s _ => s }

/-- Initial state is the goal, but `result` moves every state (including under
the sentinel action `0`) to a non-goal state. -/
def shiftProblem : Problem :=
  { initial := 0, goal := 0, actions := fun _ => [], result := fun s _ => s + 5 }

/-- An infinite chain `0 → 1 → 2 → ⋯` whose goal is the (trivially reachable)
initial state `0`. -/
def chainProblem : Problem :=
  { initial := 0, goal := 0, actions := fun _ => [1], result := fun s _ => s + 1 }

/-- A dead end: the goal `1` is unreachable from the initial state `0`, and
the reachable space is the single state `0`. -/
def stuckProblem : Problem :=
  { initial := 0, goal := 1, actions := fun _ => [], result := fun s _ => s }

/-! ### Loop-state machinery for the termination proof -/

/-- The mutable state of the `while` loop of `BFS`: the frontier, the explored
list, and the allocation counter. -/
structure LState where
  frontier : List Node
  explored : List Int
  nid : Nat

/-- One iteration of the `while` loop; `none` when the loop is about to stop
(empty frontier, or the in-loop `return` fired). -/
def loopIter (p : Problem) : LState → Option LState
  | ⟨[], _, _⟩ => none
  | ⟨node :: rest, explored, nid⟩ =>
    match expand p node (p.actions node.state) rest (explored ++ [node.state]) nid with
    | .inl _ => none
    | .inr (frontier', nid') => some ⟨frontier', explored ++ [node.state], nid'⟩

/-- `t` iterations of the loop from a given state. -/
def iterN (p : Problem) (st : LState) : Nat → Option LState
  | 0 => some st
  | t + 1 => (iterN p st t).bind (loopIter p)

/-- Length of the solution path cached at the head of the frontier (`0` for an
empty frontier); the head's depth in the search tree is this minus one. -/
def headLen : List Node → Nat
  | [] => 0
  | n :: _ => n.soln.length

/-- Head of a node list (a dummy node for the empty list); the node `BFS`
dequeues next. -/
def headNode : List Node → Node
  | [] => { state := 0, action := 0, soln := [], id := 0 }
  | n :: _ => n

/-- The loop invariant of `BFS`, relating the frontier, the explored list and
the allocation counter.  `ids_lt`/`ids_sorted` model pointer freshness,
`sound` says every frontier node carries a valid action path from the initial
state (sentinel first), `ng` that only the root can carry a goal state,
`initc` that the initial state is explored from the first iteration on,
`mono`/`depth_bd` the FIFO layer structure, `expd` that explored states have
all their successors explored or queued, and `b3` that any state reachable
within the current layer bound is already explored or queued at optimal
depth. -/
structure Inv (p : Problem) (frontier : List Node) (explored : List Int) (nid : Nat) :
    Prop where
  ids_lt : ∀ n ∈ frontier, n.id < nid
  ids_sorted : frontier.Pairwise (fun m n => m.id < n.id)
  sound : ∀ n ∈ frontier, ∃ acts, ValidFrom p p.initial acts ∧
    runFrom p p.initial acts = n.state ∧ n.soln = 0 :: acts
  expl_sound : ∀ s ∈ explored, Reaches p p.initial s
  ng : ∀ n ∈ frontier, n.state = p.initial ∨ p.goal ≠ n.state
  expl_ng : ∀ s ∈ explored, s = p.initial ∨ p.goal ≠ s
  initc : p.initial ∈ explored ∨ (explored = [] ∧ frontier = [mkNode p.initial 0 none 0])
  mono : frontier.Pairwise (fun m n => m.soln.length ≤ n.soln.length)
  depth_bd : ∀ n ∈ frontier, n.soln.length ≤ headLen frontier + 1
  expd : ∀ s ∈ explored, ∀ a ∈ p.actions s, p.result s a ∈ explored ∨
    ∃ n ∈ frontier, n.state = p.result s a ∧ n.soln.length ≤ headLen frontier + 1
  b3 : ∀ acts, ValidFrom p p.initial acts → acts.length + 1 ≤ headLen frontier →
    runFrom p p.initial acts ∈ explored ∨
      ∃ n ∈ frontier, n.state = runFrom p p.initial acts ∧ n.soln.length ≤ acts.length + 1

/-! ## Theorems -/

/-! ### The computable twin agrees with the real embedding -/

theorem ldiff_eq_xor_land (m n : Nat) : Nat.ldiff m n = Nat.xor m (Nat.land m n) := by
  apply Nat.eq_of_testBit_eq
  intro i
  show (Nat.ldiff m n).testBit i = (m ^^^ (m &&& n)).testBit i
  rw [Nat.testBit_ldiff, Nat.testBit_xor, Nat.testBit_land]
  cases m.testBit i <;> cases n.testBit i <;> rfl

theorem landC_eq : landC = Int.land := by
  funext x y
  cases x <;> cases y <;>
    simp only [landC, Int.land, ldiffC, ldiff_eq_xor_land] <;> rfl

theorem lorC_eq : lorC = Int.lor := by
  funext x y
  cases x <;> cases y <;>
    simp only [lorC, Int.lor, ldiffC, ldiff_eq_xor_land] <;> rfl

theorem riverResultC_eq : riverResultC = riverResult := by
  funext s a
  simp only [riverResultC, riverResult, landC_eq, lorC_eq]

theorem riverCrossingC_eq : riverCrossingC = riverCrossing := by
  unfold riverCrossingC riverCrossing
  rw [riverResultC_eq]

theorem runFrom_append (p : Problem) (s : Int) (xs ys : List Int) :
    runFrom p s (xs ++ ys) = runFrom p (runFrom p s xs) ys := by
  induction xs generalizing s with
  | nil => rfl
  | cons a xs ih => simp [runFrom, ih]

theorem ValidFrom_append (p : Problem) (s : Int) (xs ys : List Int) :
    ValidFrom p s (xs ++ ys) ↔ ValidFrom p s xs ∧ ValidFrom p (runFrom p s xs) ys := by
  induction xs generalizing s with
  | nil => simp [ValidFrom, runFrom]
  | cons a xs ih => simp [ValidFrom, runFrom, ih, and_assoc]

theorem Reaches.refl (p : Problem) (s : Int) : Reaches p s s :=
  ⟨[], trivial, rfl⟩

theorem Reaches.snoc {p : Problem} {i s : Int} (h : Reaches p i s) {a : Int}
    (ha : a ∈ p.actions s) : Reaches p i (p.result s a) := by
  obtain ⟨acts, hv, hr⟩ := h
  exact ⟨acts ++ [a], by
    rw [ValidFrom_append]
    exact ⟨hv, hr ▸ ⟨ha, trivial⟩⟩, by
    rw [runFrom_append, hr]; rfl⟩

/-- A set of states containing the initial state and closed under all legal
actions contains every reachable state. -/
theorem reach_closure {p : Problem} {ex : List Int}
    (hclosed : ∀ s ∈ ex, ∀ a ∈ p.actions s, p.result s a ∈ ex) :
    ∀ s ∈ ex, ∀ acts, ValidFrom p s acts → runFrom p s acts ∈ ex := by
  intro s hs acts
  induction acts generalizing s with
  | nil => intro _; exact hs
  | cons a rest ih =>
    intro ⟨ha, hv⟩
    exact ih _ (hclosed s hs a ha) hv

/-! ### Fuel monotonicity -/

theorem bfsLoop_mono_succ (p : Problem) (sol : List Int) :
    ∀ (fuel : Nat) (frontier : List Node) (explored : List Int) (nid : Nat) (r : List Int),
      (bfsLoop p sol fuel frontier explored nid).1 = some r →
      (bfsLoop p sol (fuel + 1) frontier explored nid).1 = some r := by
  intro fuel
  induction fuel with
  | zero =>
    intro frontier explored nid r h
    match frontier with
    | [] => simpa [bfsLoop] using h
    | node :: rest => simp [bfsLoop] at h
  | succ f ih =>
    intro frontier explored nid r h
    match frontier with
    | [] => simpa [bfsLoop] using h
    | node :: rest =>
      rw [bfsLoop] at h ⊢
      rcases hE : expand p node (p.actions node.state) rest (explored ++ [node.state]) nid
        with s | ⟨fr', nid'⟩
      · rw [hE] at h; exact h
      · rw [hE] at h; exact ih _ _ _ _ h

theorem bfsLoop_mono (p : Problem) (sol : List Int)
    {fuel fuel' : Nat} (hle : fuel ≤ fuel')
    {frontier : List Node} {explored : List Int} {nid : Nat} {r : List Int}
    (h : (bfsLoop p sol fuel frontier explored nid).1 = some r) :
    (bfsLoop p sol fuel' frontier explored nid).1 = some r := by
  obtain ⟨k, rfl⟩ := Nat.exists_eq_add_of_le hle
  clear hle
  induction k with
  | zero => exact h
  | succ m ih => exact bfsLoop_mono_succ p sol _ _ _ _ _ ih

theorem BFS_mono {p : Problem} {fuel fuel' : Nat} (hle : fuel ≤ fuel')
    {r : List Int} (h : BFS p fuel = some r) : BFS p fuel' = some r :=
  bfsLoop_mono p _ hle h

/-- `BFS` is deterministic across fuel values: two successful runs agree. -/
theorem BFS_det {p : Problem} {f g : Nat} {r s : List Int}
    (hf : BFS p f = some r) (hg : BFS p g = some s) : r = s := by
  rcases le_total f g with h | h
  · have h2 := BFS_mono h hf
    rw [hg] at h2
    exact (Option.some_injective _ h2).symm
  · have h2 := BFS_mono h hg
    rw [hf] at h2
    exact Option.some_injective _ h2

/-! ### Claim C7: node construction and solution paths -/

theorem descend_soln_length (p : Problem) :
    ∀ (acts : List Int) (n : Node) (i : Nat),
      (descend p n acts i).soln.length = n.soln.length + acts.length := by
  intro acts
  induction acts with
  | nil => intro n i; simp [descend]
  | cons a rest ih =>
    intro n i
    simp [descend, ih, childNode, mkNode]
    omega

/-- **C7.** `Node::Node(s, a, p)` gives a node whose solution path is the
parent's path with `a` appended; a parentless (root) node's path is just the
sentinel action `0` it is constructed with; hence a node at depth `d` below
the root carries a solution of `d + 1` entries. -/
theorem C7_theorem :
    (∀ (s a : Int) (q : Node) (i : Nat), (mkNode s a (some q) i).soln = q.soln ++ [a]) ∧
    (∀ (s : Int) (i : Nat), (mkNode s 0 none i).soln = [0]) ∧
    (∀ (p : Problem) (acts : List Int),
      (descend p (mkNode p.initial 0 none 0) acts 1).soln.length = acts.length + 1) := by
  refine ⟨fun s a q i => rfl, fun s i => rfl, fun p acts => ?_⟩
  rw [descend_soln_length]
  simp [mkNode, Nat.add_comm]

/-! ### Claim C8: the hardcoded action table -/

/-- Any state outside the nine recognised ones falls through the whole
if/else-if chain of `actions`. -/
theorem riverActions_eq_nil {s : Int} (h : s ∉ riverStates) : riverActions s = [] := by
  simp only [riverStates, List.mem_cons, List.not_mem_nil, or_false, not_or] at h
  obtain ⟨h1, h2, h3, h4, h5, h6, h7, h8, h9⟩ := h
  simp [riverActions, h1, h2, h3, h4, h5, h6, h7, h8, h9]

/-- **C8.** `actions` returns the empty list for every state other than the
nine hardcoded configurations — in particular for the goal state
`PCGWR = 0xF0` — and for the nine recognised states it returns exactly the
fixed lists of the conditional chain, in source order. -/
theorem C8_theorem :
    (∀ s : Int, s ∉ riverStates → riverCrossing.actions s = []) ∧
    riverCrossing.actions PCGWR = [] ∧
    riverCrossing.actions RPCGW = [Int.lor LP LG] ∧
    riverCrossing.actions PGRCW = [RP, Int.lor RP RG] ∧
    riverCrossing.actions PCGRW = [Int.lor RP RC, Int.lor RP RG] ∧
    riverCrossing.actions CRPGW = [Int.lor LP LG, Int.lor LP LW] ∧
    riverCrossing.actions PCWRG = [Int.lor RP RC, Int.lor RP RW, RP] ∧
    riverCrossing.actions WRPCG = [Int.lor LP LC, Int.lor LP LG] ∧
    riverCrossing.actions CWRPG = [LP, Int.lor LP LG] ∧
    riverCrossing.actions GRPCW = [LP, Int.lor LP LC, Int.lor LP LW] ∧
    riverCrossing.actions PGWRC = [Int.lor RP RG, Int.lor RP RW] := by
  refine ⟨fun s h => riverActions_eq_nil h, ?_, ?_, ?_, ?_, ?_, ?_, ?_, ?_, ?_, ?_⟩ <;> decide

/-- **C8 witness.** The dead-end clause applied at the concrete non-listed
state `99`. -/
theorem C8_witness : riverCrossing.actions 99 = [] :=
  C8_theorem.1 99 (by decide)

/-! ### Claim C9: totality of `result` -/

/-- **C9.** `result` leaves the state untouched for every action outside the
eight recognised move codes; in particular the sentinel action `0` is a
no-op. -/
theorem C9_theorem :
    (∀ s a : Int, a ∉ moveCodes → riverCrossing.result s a = s) ∧
    (∀ s : Int, riverCrossing.result s 0 = s) := by
  constructor
  · intro s a h
    simp only [moveCodes, List.mem_cons, List.not_mem_nil, or_false, not_or] at h
    obtain ⟨h1, h2, h3, h4, h5, h6, h7, h8⟩ := h
    show riverResult s a = s
    simp [riverResult, h1, h2, h3, h4, h5, h6, h7, h8]
  · intro s; rfl

/-- **C9 witness.** The fall-through clause applied at the concrete state
`15` and unrecognised action `3`. -/
theorem C9_witness : riverCrossing.result 15 3 = 15 :=
  C9_theorem.1 15 3 (by decide)

/-! ### Claim C1: the concrete river-crossing run -/

/-- The concrete run of `BFS` on the `main` instance: ten loop iterations
suffice, and the returned deque is the sentinel followed by the seven real
actions. -/
theorem bfs_river_run : BFS riverCrossing 10 = some (0 :: rcActs) := by
  rw [← riverCrossingC_eq]
  decide

/-- The final `explored` deque of that run; the state `PCWRG = 210` was
dequeued — and therefore expanded — twice. -/
theorem bfs_river_explored :
    (bfsRun riverCrossing 10).2 = [15, 165, 45, 225, 180, 75, 30, 210, 210, 90] := by
  rw [← riverCrossingC_eq]
  decide

/-- **C1 counterexample.** On the instance built in `main`, `BFS` returns a
deque of length `8`, not `7`: the node constructor seeds the root's path with
the sentinel action `0`, which is returned along with the seven real
actions. -/
theorem C1_counterexample :
    BFS riverCrossing 10 = some (0 :: rcActs) ∧ (0 :: rcActs).length ≠ 7 :=
  ⟨bfs_river_run, by decide⟩

/-- **C1 (amended).** Whenever `BFS` terminates on the `main` instance it
returns the action sequence `0 :: rcActs`: the sentinel `0` followed by the
seven real actions of the classic solution, `8` entries in total. -/
theorem C1_theorem : ∀ (fuel : Nat) (r : List Int),
    BFS riverCrossing fuel = some r →
    r = 0 :: rcActs ∧ r.length = 8 ∧ rcActs.length = 7 := by
  intro fuel r h
  have := BFS_det h bfs_river_run
  subst this
  exact ⟨rfl, rfl, rfl⟩

/-- **C1 witness.** The amended claim applied at the concrete fuel `10`. -/
theorem C1_witness :
    (0 : Int) :: rcActs = 0 :: rcActs ∧ ((0 : Int) :: rcActs).length = 8 ∧
      rcActs.length = 7 :=
  C1_theorem 10 (0 :: rcActs) bfs_river_run

/-! ### Characterisation of `expand` -/

/-- When the inner action loop finishes without firing the goal return, the
frontier has grown by a block `ks` of freshly allocated children: each has an
unexplored, non-goal state, a solution path extending the parent's by its
action, and a fresh id; ids are allocated in increasing order; and every
action of the list is accounted for — its child is either already explored or
a member of `ks`. -/
theorem expand_inr_spec (p : Problem) (node : Node) :
    ∀ (acts : List Int) (fr : List Node) (ex : List Int) (nid : Nat)
      (fr' : List Node) (nid' : Nat),
      (∀ n ∈ fr, n.id < nid) →
      expand p node acts fr ex nid = .inr (fr', nid') →
      nid ≤ nid' ∧
      ∃ ks, fr' = fr ++ ks ∧
        (∀ c ∈ ks, c.state ∉ ex ∧ p.goal_test c.state = false ∧
          nid ≤ c.id ∧ c.id < nid' ∧
          ∃ a ∈ acts, c.state = p.result node.state a ∧ c.soln = node.soln ++ [a]) ∧
        ks.Pairwise (fun m n => m.id < n.id) ∧
        (∀ a ∈ acts, p.result node.state a ∈ ex ∨
          ∃ c ∈ ks, c.state = p.result node.state a ∧ c.soln = node.soln ++ [a]) := by
  intro acts
  induction acts with
  | nil =>
    intro fr ex nid fr' nid' hfr h
    simp only [expand, Sum.inr.injEq, Prod.mk.injEq] at h
    obtain ⟨h1, h2⟩ := h
    subst h1; subst h2
    exact ⟨le_rfl, [], by simp, by simp, by simp, by simp⟩
  | cons a rest ih =>
    intro fr ex nid fr' nid' hfr h
    simp only [expand] at h
    split at h
    · rename_i hguard
      split at h
      · exact Sum.noConfusion h
      · rename_i hgt
        have hfr1 : ∀ n ∈ fr ++ [childNode p node a nid], n.id < nid + 1 := by
          intro n hn
          rcases List.mem_append.mp hn with h1 | h1
          · exact Nat.lt_succ_of_lt (hfr n h1)
          · have : n = childNode p node a nid := by simpa using h1
            subst this
            exact Nat.lt_succ_self _
        obtain ⟨hle, ks1, hfre, hks1, hpw1, hcov1⟩ := ih _ _ _ _ _ hfr1 h
        have hgf : p.goal_test (childNode p node a nid).state = false := by
          cases hb : p.goal_test (childNode p node a nid).state
          · rfl
          · exact absurd hb hgt
        refine ⟨Nat.le_of_succ_le hle, childNode p node a nid :: ks1, ?_, ?_, ?_, ?_⟩
        · rw [hfre, List.append_assoc]
          rfl
        · intro c hc
          rcases List.mem_cons.mp hc with h1 | h1
          · subst h1
            exact ⟨hguard.2, hgf, le_rfl, Nat.lt_of_succ_le hle,
              a, List.mem_cons_self _ _, rfl, rfl⟩
          · obtain ⟨hc1, hc2, hc3, hc4, b, hb1, hb2, hb3⟩ := hks1 c h1
            exact ⟨hc1, hc2, Nat.le_of_succ_le hc3, hc4,
              b, List.mem_cons_of_mem _ hb1, hb2, hb3⟩
        · refine List.pairwise_cons.mpr ⟨?_, hpw1⟩
          intro c hc
          exact Nat.lt_of_succ_le (hks1 c hc).2.2.1
        · intro b hb
          rcases List.mem_cons.mp hb with h1 | h1
          · subst h1
            exact Or.inr ⟨childNode p node b nid, List.mem_cons_self _ _, rfl, rfl⟩
          · rcases hcov1 b h1 with h2 | ⟨c, hc1, hc2⟩
            · exact Or.inl h2
            · exact Or.inr ⟨c, List.mem_cons_of_mem _ hc1, hc2⟩
    · rename_i hguard
      have hstate : (childNode p node a nid).state ∈ ex := by
        by_contra hnot
        exact hguard ⟨fun m hm => Nat.ne_of_lt (hfr m hm), hnot⟩
      have hfr1 : ∀ n ∈ fr, n.id < nid + 1 := fun n hn => Nat.lt_succ_of_lt (hfr n hn)
      obtain ⟨hle, ks1, hfre, hks1, hpw1, hcov1⟩ := ih _ _ _ _ _ hfr1 h
      refine ⟨Nat.le_of_succ_le hle, ks1, hfre, ?_, hpw1, ?_⟩
      · intro c hc
        obtain ⟨hc1, hc2, hc3, hc4, b, hb1, hb2, hb3⟩ := hks1 c hc
        exact ⟨hc1, hc2, Nat.le_of_succ_le hc3, hc4,
          b, List.mem_cons_of_mem _ hb1, hb2, hb3⟩
      · intro b hb
        rcases List.mem_cons.mp hb with h1 | h1
        · subst h1
          exact Or.inl hstate
        · rcases hcov1 b h1 with h2 | ⟨c, hc1, hc2⟩
          · exact Or.inl h2
          · exact Or.inr ⟨c, hc1, hc2⟩

/-- When the inner action loop fires the goal return, the returned value is
the parent's solution extended by the action whose (unexplored) child passed
the goal test. -/
theorem expand_inl_spec (p : Problem) (node : Node) :
    ∀ (acts : List Int) (fr : List Node) (ex : List Int) (nid : Nat) (s : List Int),
      (∀ n ∈ fr, n.id < nid) →
      expand p node acts fr ex nid = .inl s →
      ∃ a ∈ acts, s = node.soln ++ [a] ∧
        p.goal_test (p.result node.state a) = true ∧
        p.result node.state a ∉ ex := by
  intro acts
  induction acts with
  | nil =>
    intro fr ex nid s hfr h
    simp [expand] at h
  | cons a rest ih =>
    intro fr ex nid s hfr h
    simp only [expand] at h
    split at h
    · rename_i hguard
      split at h
      · rename_i hgt
        obtain rfl : (childNode p node a nid).solution = s := Sum.inl.inj h
        exact ⟨a, List.mem_cons_self _ _, rfl, hgt, hguard.2⟩
      · have hfr1 : ∀ n ∈ fr ++ [childNode p node a nid], n.id < nid + 1 := by
          intro n hn
          rcases List.mem_append.mp hn with h1 | h1
          · exact Nat.lt_succ_of_lt (hfr n h1)
          · have : n = childNode p node a nid := by simpa using h1
            subst this
            exact Nat.lt_succ_self _
        obtain ⟨b, hb1, hb2, hb3, hb4⟩ := ih _ _ _ _ hfr1 h
        exact ⟨b, List.mem_cons_of_mem _ hb1, hb2, hb3, hb4⟩
    · have hfr1 : ∀ n ∈ fr, n.id < nid + 1 := fun n hn => Nat.lt_succ_of_lt (hfr n hn)
      obtain ⟨b, hb1, hb2, hb3, hb4⟩ := ih _ _ _ _ hfr1 h
      exact ⟨b, List.mem_cons_of_mem _ hb1, hb2, hb3, hb4⟩

/-- In a frontier whose solution lengths are pairwise nondecreasing, the
head's length bounds every member's length from below. -/
theorem headLen_le {fr : List Node}
    (hpw : fr.Pairwise (fun m n => m.soln.length ≤ n.soln.length)) :
    ∀ n ∈ fr, headLen fr ≤ n.soln.length := by
  match fr with
  | [] => intro n hn; exact absurd hn (List.not_mem_nil n)
  | m :: rest =>
    intro n hn
    rcases List.mem_cons.mp hn with h1 | h1
    · subst h1; exact le_rfl
    · exact (List.pairwise_cons.mp hpw).1 n h1

/-- The head of a nonempty list is a member. -/
theorem headLen_mem {fr : List Node} (h : fr ≠ []) :
    ∃ n ∈ fr, n.soln.length = headLen fr := by
  match fr with
  | [] => exact absurd rfl h
  | m :: rest => exact ⟨m, List.mem_cons_self _ _, rfl⟩

/-! ### Preservation of the loop invariant -/

theorem inv_step {p : Problem} {node : Node} {rest : List Node} {explored : List Int}
    {nid : Nat} {fr' : List Node} {nid' : Nat}
    (hinv : Inv p (node :: rest) explored nid)
    (hE : expand p node (p.actions node.state) rest (explored ++ [node.state]) nid =
      .inr (fr', nid')) :
    Inv p fr' (explored ++ [node.state]) nid' := by
  have hfr : ∀ n ∈ rest, n.id < nid := fun n hn => hinv.ids_lt n (List.mem_cons_of_mem _ hn)
  obtain ⟨hnidle, ks, hfre, hks, hpwks, hcov⟩ :=
    expand_inr_spec p node _ _ _ _ _ _ hfr hE
  obtain ⟨acts0, hv0, hr0, hs0⟩ := hinv.sound node (List.mem_cons_self _ _)
  set L := node.soln.length with hL
  have hL1 : L = acts0.length + 1 := by rw [hL, hs0]; simp
  have hheadL : headLen (node :: rest) = L := rfl
  have hmem' : ∀ n ∈ fr', n ∈ rest ∨ n ∈ ks := by
    intro n hn; rw [hfre] at hn; exact List.mem_append.mp hn
  have hrest_sub : ∀ n ∈ rest, n ∈ fr' := by
    intro n hn; rw [hfre]; exact List.mem_append_left _ hn
  have hks_sub : ∀ n ∈ ks, n ∈ fr' := by
    intro n hn; rw [hfre]; exact List.mem_append_right _ hn
  have hks_len : ∀ c ∈ ks, c.soln.length = L + 1 := by
    intro c hc
    obtain ⟨_, _, _, _, a, _, _, hsoln⟩ := hks c hc
    rw [hsoln]; simp [hL]
  have hrest_lenlo : ∀ n ∈ rest, L ≤ n.soln.length := by
    intro n hn
    exact (List.pairwise_cons.mp hinv.mono).1 n hn
  have hrest_lenhi : ∀ n ∈ rest, n.soln.length ≤ L + 1 := by
    intro n hn
    have := hinv.depth_bd n (List.mem_cons_of_mem _ hn)
    rwa [hheadL] at this
  have hlen_lo : ∀ n ∈ fr', L ≤ n.soln.length := by
    intro n hn
    rcases hmem' n hn with h1 | h1
    · exact hrest_lenlo n h1
    · rw [hks_len n h1]; omega
  have hlen_hi : ∀ n ∈ fr', n.soln.length ≤ L + 1 := by
    intro n hn
    rcases hmem' n hn with h1 | h1
    · exact hrest_lenhi n h1
    · rw [hks_len n h1]
  have hheadL' : fr' ≠ [] → L ≤ headLen fr' ∧ headLen fr' ≤ L + 1 := by
    intro hne
    obtain ⟨m, hm, hmlen⟩ := headLen_mem hne
    rw [← hmlen]
    exact ⟨hlen_lo m hm, hlen_hi m hm⟩
  have hmono' : fr'.Pairwise (fun m n => m.soln.length ≤ n.soln.length) := by
    rw [hfre]
    refine List.pairwise_append.mpr ⟨(List.pairwise_cons.mp hinv.mono).2, ?_, ?_⟩
    · refine hpwks.imp_of_mem ?_
      intro c d hc hd _
      rw [hks_len c hc, hks_len d hd]
    · intro m hm c hc
      rw [hks_len c hc]
      exact hrest_lenhi m hm
  refine { ids_lt := ?_, ids_sorted := ?_, sound := ?_, expl_sound := ?_, ng := ?_,
           expl_ng := ?_, initc := ?_, mono := hmono', depth_bd := ?_, expd := ?_,
           b3 := ?_ }
  · intro n hn
    rcases hmem' n hn with h1 | h1
    · exact Nat.lt_of_lt_of_le (hfr n h1) hnidle
    · exact (hks n h1).2.2.2.1
  · rw [hfre]
    refine List.pairwise_append.mpr ⟨(List.pairwise_cons.mp hinv.ids_sorted).2, hpwks, ?_⟩
    intro m hm c hc
    exact Nat.lt_of_lt_of_le (hfr m hm) (hks c hc).2.2.1
  · intro n hn
    rcases hmem' n hn with h1 | h1
    · exact hinv.sound n (List.mem_cons_of_mem _ h1)
    · obtain ⟨_, _, _, _, a, ha, hstate, hsoln⟩ := hks n h1
      refine ⟨acts0 ++ [a], ?_, ?_, ?_⟩
      · rw [ValidFrom_append]
        exact ⟨hv0, by rw [hr0]; exact ⟨ha, trivial⟩⟩
      · rw [runFrom_append, hr0, hstate]; rfl
      · rw [hsoln, hs0]; rfl
  · intro s hs
    rcases List.mem_append.mp hs with h1 | h1
    · exact hinv.expl_sound s h1
    · have : s = node.state := by simpa using h1
      subst this
      exact ⟨acts0, hv0, hr0⟩
  · intro n hn
    rcases hmem' n hn with h1 | h1
    · exact hinv.ng n (List.mem_cons_of_mem _ h1)
    · exact Or.inr (by simpa [Problem.goal_test, beq_eq_false_iff_ne]
        using (hks n h1).2.1)
  · intro s hs
    rcases List.mem_append.mp hs with h1 | h1
    · exact hinv.expl_ng s h1
    · have : s = node.state := by simpa using h1
      subst this
      exact hinv.ng node (List.mem_cons_self _ _)
  · left
    rcases hinv.initc with h1 | ⟨h1, h2⟩
    · exact List.mem_append_left _ h1
    · have h3 : node = mkNode p.initial 0 none 0 := (List.cons_eq_cons.mp h2).1
      apply List.mem_append_right
      rw [h3]
      exact List.mem_singleton.mpr rfl
  · intro n hn
    have hne : fr' ≠ [] := List.ne_nil_of_mem hn
    obtain ⟨hlo, hhi⟩ := hheadL' hne
    have := hlen_hi n hn
    omega
  · intro s hs a ha
    rcases List.mem_append.mp hs with h1 | h1
    · rcases hinv.expd s h1 a ha with h2 | ⟨n, hn, hstate, hlen⟩
      · exact Or.inl (List.mem_append_left _ h2)
      · rcases List.mem_cons.mp hn with h3 | h3
        · subst h3
          refine Or.inl ?_
          rw [← hstate]
          exact List.mem_append_right _ (List.mem_singleton.mpr rfl)
        · refine Or.inr ⟨n, hrest_sub n h3, hstate, ?_⟩
          have hne : fr' ≠ [] := List.ne_nil_of_mem (hrest_sub n h3)
          obtain ⟨hlo, _⟩ := hheadL' hne
          rw [hheadL] at hlen
          omega
    · have hseq : s = node.state := by simpa using h1
      subst hseq
      rcases hcov a ha with h2 | ⟨c, hc, hcstate, -⟩
      · exact Or.inl h2
      · refine Or.inr ⟨c, hks_sub c hc, hcstate, ?_⟩
        have hne : fr' ≠ [] := List.ne_nil_of_mem (hks_sub c hc)
        obtain ⟨hlo, _⟩ := hheadL' hne
        have := hks_len c hc
        omega
  · intro acts hv hlen
    have hne : fr' ≠ [] := by
      intro hh; rw [hh] at hlen; simp [headLen] at hlen
    obtain ⟨hlo, hhi⟩ := hheadL' hne
    rcases Nat.lt_or_ge (acts.length + 1) (L + 1) with hcase | hcase
    · have hold := hinv.b3 acts hv (by rw [hheadL]; omega)
      rcases hold with h2 | ⟨n, hn, hstate, hlen2⟩
      · exact Or.inl (List.mem_append_left _ h2)
      · rcases List.mem_cons.mp hn with h3 | h3
        · subst h3
          refine Or.inl ?_
          rw [← hstate]
          exact List.mem_append_right _ (List.mem_singleton.mpr rfl)
        · exact Or.inr ⟨n, hrest_sub n h3, hstate, hlen2⟩
    · have hacts_len : acts.length = L := by omega
      have hhead_eq : headLen fr' = L + 1 := by omega
      rcases List.eq_nil_or_concat acts with h2 | ⟨ys, b, hcat⟩
      · rw [h2] at hacts_len
        simp at hacts_len
        omega
      · rw [List.concat_eq_append] at hcat
        subst hcat
        obtain ⟨hvys, hstep⟩ := (ValidFrom_append p p.initial ys [b]).mp hv
        obtain ⟨hb, -⟩ := hstep
        have hrun : runFrom p p.initial (ys ++ [b]) =
            p.result (runFrom p p.initial ys) b := by
          rw [runFrom_append]; rfl
        have hys_len : ys.length + 1 = L := by
          have : (ys ++ [b]).length = ys.length + 1 := by simp
          omega
        have hold := hinv.b3 ys hvys (by rw [hheadL]; omega)
        rcases hold with h2 | ⟨n, hn, hstate, hlen2⟩
        · rcases hinv.expd _ h2 b hb with h3 | ⟨n, hn, hstate, hlen3⟩
          · exact Or.inl (by rw [hrun]; exact List.mem_append_left _ h3)
          · rcases List.mem_cons.mp hn with h4 | h4
            · subst h4
              refine Or.inl ?_
              rw [hrun, ← hstate]
              exact List.mem_append_right _ (List.mem_singleton.mpr rfl)
            · refine Or.inr ⟨n, hrest_sub n h4, by rw [hrun]; exact hstate, ?_⟩
              rw [hheadL] at hlen3
              simp only [List.length_append, List.length_cons, List.length_nil]
              omega
        · rcases List.mem_cons.mp hn with h4 | h4
          · subst h4
            rcases hcov b (by rw [hstate]; exact hb) with h3 | ⟨c, hc, hcstate, -⟩
            · exact Or.inl (by rw [hrun, ← hstate]; exact h3)
            · refine Or.inr ⟨c, hks_sub c hc, ?_, ?_⟩
              · rw [hrun, ← hstate]; exact hcstate
              · rw [hks_len c hc]
                simp only [List.length_append, List.length_cons, List.length_nil]
                omega
          · exfalso
            have h5 := headLen_le hmono' n (hrest_sub n h4)
            omega

/-- When the in-loop goal return fires from an invariant-satisfying loop
state, the returned value is a shortest sentinel-prefixed goal path, and the
goal then differs from the initial state. -/
theorem fire_spec {p : Problem} {node : Node} {rest : List Node} {explored : List Int}
    {nid : Nat} {s : List Int}
    (hinv : Inv p (node :: rest) explored nid)
    (hE : expand p node (p.actions node.state) rest (explored ++ [node.state]) nid =
      .inl s) :
    GoodSolution p s := by
  have hfr : ∀ n ∈ rest, n.id < nid := fun n hn => hinv.ids_lt n (List.mem_cons_of_mem _ hn)
  obtain ⟨a, ha, hseq, hgt, hnot⟩ := expand_inl_spec p node _ _ _ _ _ hfr hE
  obtain ⟨acts0, hv0, hr0, hs0⟩ := hinv.sound node (List.mem_cons_self _ _)
  have hgeq : p.goal = p.result node.state a := by
    simpa [Problem.goal_test, beq_iff_eq] using hgt
  have hinit_mem : p.initial ∈ explored ++ [node.state] := by
    rcases hinv.initc with h1 | ⟨h1, h2⟩
    · exact List.mem_append_left _ h1
    · have h3 : node = mkNode p.initial 0 none 0 := (List.cons_eq_cons.mp h2).1
      apply List.mem_append_right
      rw [h3]
      exact List.mem_singleton.mpr rfl
  have hne : p.goal ≠ p.initial := by
    intro hcontra
    rw [← hgeq] at hnot
    exact hnot (hcontra ▸ hinit_mem)
  refine ⟨hne, ⟨acts0 ++ [a], ?_, ?_, ?_⟩, ?_⟩
  · rw [hseq, hs0]; rfl
  · rw [ValidFrom_append]
    exact ⟨hv0, by rw [hr0]; exact ⟨ha, trivial⟩⟩
  · rw [runFrom_append, hr0]
    exact hgt
  · intro acts hv hgt2
    have hgoal_run : p.goal = runFrom p p.initial acts := by
      simpa [Problem.goal_test, beq_iff_eq] using hgt2
    by_contra hlt
    push_neg at hlt
    have hslen : s.length = node.soln.length + 1 := by rw [hseq]; simp
    have hb3 := hinv.b3 acts hv (by
      show acts.length + 1 ≤ node.soln.length
      omega)
    rcases hb3 with h2 | ⟨n, hn, hstate, _⟩
    · rw [← hgoal_run] at h2
      rw [← hgeq] at hnot
      exact hnot (List.mem_append_left _ h2)
    · rcases hinv.ng n hn with h3 | h3
      · exact hne (by rw [hgoal_run, ← hstate, h3])
      · exact h3 (by rw [hstate]; exact hgoal_run)

/-- The loop invariant holds at the start of `BFS`: the frontier holds just
the root node, nothing is explored, and the allocation counter is `1`. -/
theorem inv_init (p : Problem) : Inv p [mkNode p.initial 0 none 0] [] 1 := by
  refine { ids_lt := ?_, ids_sorted := ?_, sound := ?_, expl_sound := ?_, ng := ?_,
           expl_ng := ?_, initc := ?_, mono := ?_, depth_bd := ?_, expd := ?_,
           b3 := ?_ }
  · intro n hn
    have h1 : n = mkNode p.initial 0 none 0 := by simpa using hn
    subst h1
    exact Nat.zero_lt_one
  · simp
  · intro n hn
    have h1 : n = mkNode p.initial 0 none 0 := by simpa using hn
    subst h1
    exact ⟨[], trivial, rfl, rfl⟩
  · intro s hs; exact absurd hs (List.not_mem_nil s)
  · intro n hn
    have h1 : n = mkNode p.initial 0 none 0 := by simpa using hn
    subst h1
    exact Or.inl rfl
  · intro s hs; exact absurd hs (List.not_mem_nil s)
  · exact Or.inr ⟨rfl, rfl⟩
  · simp
  · intro n hn
    have h1 : n = mkNode p.initial 0 none 0 := by simpa using hn
    subst h1
    simp [mkNode, headLen]
  · intro s hs; exact absurd hs (List.not_mem_nil s)
  · intro acts hv hlen
    have hlen1 : headLen [mkNode p.initial 0 none 0] = 1 := rfl
    rw [hlen1] at hlen
    have h1 : acts = [] := List.eq_nil_of_length_eq_zero (by omega)
    subst h1
    exact Or.inr ⟨mkNode p.initial 0 none 0, List.mem_singleton.mpr rfl, rfl,
      by simp [mkNode]⟩

/-- When the frontier is empty, the invariant certifies exhaustion: the
explored list contains the initial state, contains no goal state other than
possibly the initial one, and is closed under all legal actions. -/
theorem exhausted_cert {p : Problem} {explored : List Int} {nid : Nat}
    (hinv : Inv p [] explored nid) :
    p.initial ∈ explored ∧ (∀ s ∈ explored, s = p.initial ∨ p.goal ≠ s) ∧
    (∀ s ∈ explored, ∀ a ∈ p.actions s, p.result s a ∈ explored) := by
  refine ⟨?_, hinv.expl_ng, ?_⟩
  · rcases hinv.initc with h1 | ⟨h1, h2⟩
    · exact h1
    · exact absurd h2.symm (List.cons_ne_nil _ _)
  · intro s hs a ha
    rcases hinv.expd s hs a ha with h1 | ⟨n, hn, _, _⟩
    · exact h1
    · exact absurd hn (List.not_mem_nil n)

/-- Master characterisation of a terminating run of the `BFS` loop: the run
either fires the in-loop return with a shortest sentinel-prefixed goal path,
or exits with the pre-loop `solution` value after exhausting the frontier
over a closed explored set. -/
theorem bfsLoop_some_spec {p : Problem} {sol : List Int} :
    ∀ (fuel : Nat) (frontier : List Node) (explored : List Int) (nid : Nat) (r : List Int),
      Inv p frontier explored nid →
      (bfsLoop p sol fuel frontier explored nid).1 = some r →
      GoodSolution p r ∨
      (r = sol ∧ ∃ ex : List Int, p.initial ∈ ex ∧
        (∀ s ∈ ex, s = p.initial ∨ p.goal ≠ s) ∧
        (∀ s ∈ ex, ∀ a ∈ p.actions s, p.result s a ∈ ex)) := by
  intro fuel
  induction fuel with
  | zero =>
    intro frontier explored nid r hinv h
    match frontier with
    | [] =>
      obtain ⟨h1, h2, h3⟩ := exhausted_cert hinv
      exact Or.inr ⟨(Option.some_injective _ h).symm, explored, h1, h2, h3⟩
    | node :: rest => exact absurd h (by simp [bfsLoop])
  | succ f ih =>
    intro frontier explored nid r hinv h
    match frontier with
    | [] =>
      obtain ⟨h1, h2, h3⟩ := exhausted_cert hinv
      exact Or.inr ⟨(Option.some_injective _ h).symm, explored, h1, h2, h3⟩
    | node :: rest =>
      rw [bfsLoop] at h
      rcases hE : expand p node (p.actions node.state) rest
          (explored ++ [node.state]) nid with s | ⟨fr', nid'⟩
      · rw [hE] at h
        have h1 : s = r := Option.some_injective _ h
        subst h1
        exact Or.inl (fire_spec hinv hE)
      · rw [hE] at h
        exact ih fr' _ nid' r (inv_step hinv hE) h

/-! ### Termination on finite reachable spaces

If `BFS` never returned, the loop would run forever.  Each dequeued node was
allocated (its pointer/id is fresh) strictly later than the previously
dequeued one, all nodes carrying an already-explored state were allocated
before that state was first dequeued, and all dequeued states live in the
finite reachable space — so some state would have to be dequeued infinitely
often through finitely many allocations, which is absurd. -/

/-- A successful `loopIter` step decomposes into a dequeue plus an expansion
that did not fire the goal return. -/
theorem loopIter_spec {p : Problem} {st st' : LState} (h : loopIter p st = some st') :
    ∃ node rest, st.frontier = node :: rest ∧
      expand p node (p.actions node.state) rest (st.explored ++ [node.state]) st.nid =
        .inr (st'.frontier, st'.nid) ∧
      st'.explored = st.explored ++ [node.state] := by
  obtain ⟨fr, ex, nid⟩ := st
  match fr with
  | [] => exact absurd h (by simp [loopIter])
  | node :: rest =>
    rw [loopIter] at h
    rcases hE : expand p node (p.actions node.state) rest (ex ++ [node.state]) nid
      with s | ⟨fr', nid'⟩
    · rw [hE] at h
      exact absurd h (by simp)
    · rw [hE] at h
      have h1 : (⟨fr', ex ++ [node.state], nid'⟩ : LState) = st' :=
        Option.some_injective _ h
      subst h1
      exact ⟨node, rest, rfl, hE, rfl⟩

/-- An out-of-fuel run of length `fuel + 1` factors through one `loopIter`
step followed by an out-of-fuel run of length `fuel`. -/
theorem bfsLoop_none_step {p : Problem} {sol : List Int} {fuel : Nat}
    {fr : List Node} {ex : List Int} {nid : Nat}
    (h : (bfsLoop p sol (fuel + 1) fr ex nid).1 = none) :
    ∃ st' : LState, loopIter p ⟨fr, ex, nid⟩ = some st' ∧
      (bfsLoop p sol fuel st'.frontier st'.explored st'.nid).1 = none := by
  match fr with
  | [] => exact absurd h (by simp [bfsLoop])
  | node :: rest =>
    rw [bfsLoop] at h
    rcases hE : expand p node (p.actions node.state) rest (ex ++ [node.state]) nid
      with s | ⟨fr', nid'⟩
    · rw [hE] at h
      exact absurd h (by simp)
    · rw [hE] at h
      exact ⟨⟨fr', ex ++ [node.state], nid'⟩, by rw [loopIter, hE], h⟩

/-- If the loop runs out of every amount of fuel, every iterate of `loopIter`
exists (and itself runs out of every amount of fuel). -/
theorem iterN_total {p : Problem} {sol : List Int} :
    ∀ (t : Nat) (st0 : LState),
      (∀ fuel, (bfsLoop p sol fuel st0.frontier st0.explored st0.nid).1 = none) →
      ∃ st, iterN p st0 t = some st ∧
        ∀ fuel, (bfsLoop p sol fuel st.frontier st.explored st.nid).1 = none := by
  intro t
  induction t with
  | zero => intro st0 h; exact ⟨st0, rfl, h⟩
  | succ n ih =>
    intro st0 h
    obtain ⟨st, hst, hnone⟩ := ih st0 h
    obtain ⟨st', hstep, -⟩ := bfsLoop_none_step (hnone 1)
    refine ⟨st', ?_, ?_⟩
    · show iterN p st0 (n + 1) = some st'
      rw [iterN, hst]
      exact hstep
    · intro fuel
      obtain ⟨st'', hstep', hnone''⟩ := bfsLoop_none_step (hnone (fuel + 1))
      have h2 : st' = st'' := Option.some_injective _ (hstep.symm.trans hstep')
      rw [h2]
      exact hnone''

/-- **Termination.** On a problem whose reachable state space is finite,
`BFS` returns for some amount of fuel. -/
theorem bfs_terminates {p : Problem} (hfin : FiniteSpace p) :
    ∃ fuel r, BFS p fuel = some r := by
  by_contra hno
  push_neg at hno
  have hnone : ∀ fuel, BFS p fuel = none := by
    intro fuel
    cases hB : BFS p fuel with
    | none => rfl
    | some r => exact absurd hB (hno fuel r)
  obtain ⟨R, hR⟩ := hfin
  have hnone0 : ∀ fuel, (bfsLoop p
      (if p.goal_test (mkNode p.initial 0 none 0).state
        then (mkNode p.initial 0 none 0).solution else []) fuel
      ((⟨[mkNode p.initial 0 none 0], [], 1⟩ : LState)).frontier
      ((⟨[mkNode p.initial 0 none 0], [], 1⟩ : LState)).explored
      ((⟨[mkNode p.initial 0 none 0], [], 1⟩ : LState)).nid).1 = none :=
    fun fuel => hnone fuel
  have htot := fun t => iterN_total t ⟨[mkNode p.initial 0 none 0], [], 1⟩ hnone0
  choose st hst hstnone using htot
  have hstep : ∀ t, loopIter p (st t) = some (st (t + 1)) := by
    intro t
    have h1 := hst (t + 1)
    rw [iterN, hst t] at h1
    exact h1
  have hst00 : st 0 = ⟨[mkNode p.initial 0 none 0], [], 1⟩ :=
    (Option.some_injective _ (hst 0)).symm
  have hspec := fun t => loopIter_spec (hstep t)
  have hinv : ∀ t, Inv p (st t).frontier (st t).explored (st t).nid := by
    intro t
    induction t with
    | zero => rw [hst00]; exact inv_init p
    | succ n ihn =>
      obtain ⟨node, rest, hfr, hE, hex⟩ := hspec n
      rw [hfr] at ihn
      have h2 := inv_step ihn hE
      rwa [← hex] at h2
  have hmono : ∀ t, (headNode (st t).frontier).id < (headNode (st (t + 1)).frontier).id := by
    intro t
    obtain ⟨node, rest, hfr, hE, hex⟩ := hspec t
    have hfr1 : ∀ x ∈ rest, x.id < (st t).nid := by
      intro x hx
      exact (hinv t).ids_lt x (by rw [hfr]; exact List.mem_cons_of_mem _ hx)
    obtain ⟨-, ks, hfre, hks, -, -⟩ := expand_inr_spec p node _ _ _ _ _ _ hfr1 hE
    have hnodelt : node.id < (st t).nid :=
      (hinv t).ids_lt node (by rw [hfr]; exact List.mem_cons_self _ _)
    have hgt : ∀ n ∈ (st (t + 1)).frontier, node.id < n.id := by
      intro n hn
      rw [hfre] at hn
      rcases List.mem_append.mp hn with h1 | h1
      · have h2 := (hinv t).ids_sorted
        rw [hfr] at h2
        exact (List.pairwise_cons.mp h2).1 n h1
      · exact Nat.lt_of_lt_of_le hnodelt (hks n h1).2.2.1
    obtain ⟨node1, rest1, hfr1', -, -⟩ := hspec (t + 1)
    have hmem1 : headNode (st (t + 1)).frontier ∈ (st (t + 1)).frontier := by
      rw [hfr1']
      exact List.mem_cons_self _ _
    have h3 := hgt _ hmem1
    rw [hfr]
    exact h3
  have hfge : ∀ t, t ≤ (headNode (st t).frontier).id := by
    intro t
    induction t with
    | zero => exact Nat.zero_le _
    | succ n ihn => exact Nat.succ_le_of_lt (Nat.lt_of_le_of_lt ihn (hmono n))
  have hexpl : ∀ t x, x ∈ (st t).explored ↔
      ∃ u, u < t ∧ (headNode (st u).frontier).state = x := by
    intro t
    induction t with
    | zero =>
      intro x
      rw [hst00]
      simp
    | succ n ihn =>
      intro x
      obtain ⟨node, rest, hfr, hE, hex⟩ := hspec n
      rw [hex]
      constructor
      · intro hx
        rcases List.mem_append.mp hx with h1 | h1
        · obtain ⟨u, hu, hdu⟩ := (ihn x).mp h1
          exact ⟨u, Nat.lt_succ_of_lt hu, hdu⟩
        · have h2 : x = node.state := by simpa using h1
          refine ⟨n, Nat.lt_succ_self n, ?_⟩
          rw [hfr, h2]
          rfl
      · rintro ⟨u, hu, hdu⟩
        rcases Nat.lt_succ_iff_lt_or_eq.mp hu with h1 | h1
        · exact List.mem_append_left _ ((ihn x).mpr ⟨u, h1, hdu⟩)
        · subst h1
          apply List.mem_append_right
          rw [← hdu, hfr]
          exact List.mem_singleton.mpr rfl
  have hI5 : ∀ t, ∀ n ∈ (st t).frontier, ∀ u, u < t →
      (headNode (st u).frontier).state = n.state → n.id < (st u).nid := by
    intro t
    induction t with
    | zero => intro n hn u hu; exact absurd hu (Nat.not_lt_zero u)
    | succ m ihm =>
      intro n hn u hu hds
      obtain ⟨node, rest, hfr, hE, hex⟩ := hspec m
      have hfr1 : ∀ x ∈ rest, x.id < (st m).nid := by
        intro x hx
        exact (hinv m).ids_lt x (by rw [hfr]; exact List.mem_cons_of_mem _ hx)
      obtain ⟨-, ks, hfre, hks, -, -⟩ := expand_inr_spec p node _ _ _ _ _ _ hfr1 hE
      rw [hfre] at hn
      rcases List.mem_append.mp hn with h1 | h1
      · rcases Nat.lt_succ_iff_lt_or_eq.mp hu with h2 | h2
        · exact ihm n (by rw [hfr]; exact List.mem_cons_of_mem _ h1) u h2 hds
        · subst h2
          exact (hinv u).ids_lt n (by rw [hfr]; exact List.mem_cons_of_mem _ h1)
      · exfalso
        have hnot := (hks n h1).1
        have hmem : (headNode (st u).frontier).state ∈ (st m).explored ++ [node.state] := by
          rw [← hex]
          exact (hexpl (m + 1) _).mpr ⟨u, hu, rfl⟩
        rw [hds] at hmem
        exact hnot hmem
  have hreach : ∀ t, Reaches p p.initial ((headNode (st t).frontier).state) := by
    intro t
    obtain ⟨node, rest, hfr, -, -⟩ := hspec t
    obtain ⟨acts, hv, hr1, -⟩ :=
      (hinv t).sound node (by rw [hfr]; exact List.mem_cons_self _ _)
    rw [hfr]
    exact ⟨acts, hv, hr1⟩
  have hfib : ∃ s : Int, {t : Nat | (headNode (st t).frontier).state = s}.Infinite := by
    by_contra hfin2
    push_neg at hfin2
    have huniv : (Set.univ : Set Nat) ⊆
        ⋃ s ∈ (R : Finset Int), {t : Nat | (headNode (st t).frontier).state = s} := by
      intro t _
      exact Set.mem_biUnion (hR _ (hreach t)) rfl
    have h2 : (Set.univ : Set Nat).Finite :=
      Set.Finite.subset (Set.Finite.biUnion R.finite_toSet
        (fun s _ => Set.not_infinite.mp (hfin2 s))) huniv
    exact Set.infinite_univ h2
  obtain ⟨s, hs⟩ := hfib
  obtain ⟨t0, ht0⟩ := hs.nonempty
  have hub : ∀ N : Nat, ∃ t, (headNode (st t).frontier).state = s ∧ N < t := by
    intro N
    by_contra hb
    push_neg at hb
    exact hs (Set.Finite.subset (Set.finite_Iic N) (fun t ht => hb t ht))
  obtain ⟨t, hts, htlt⟩ := hub (max t0 (st t0).nid)
  have ht0lt : t0 < t := Nat.lt_of_le_of_lt (le_max_left _ _) htlt
  have hnidlt : (st t0).nid < t := Nat.lt_of_le_of_lt (le_max_right _ _) htlt
  obtain ⟨node, rest, hfr, -, -⟩ := hspec t
  have hmem : headNode (st t).frontier ∈ (st t).frontier := by
    rw [hfr]
    exact List.mem_cons_self _ _
  have hid : (headNode (st t).frontier).id < (st t0).nid :=
    hI5 t _ hmem t0 ht0lt (ht0.trans hts.symm)
  have hge := hfge t
  omega

/-! ### Claim C5: the deduplication guard -/

/-- **C5 counterexample.** In the `main` run the state `PCWRG = 210` appears
twice in the final `explored` deque.  The source pushes to `explored` exactly
once per dequeued node, immediately before invoking `actions` on its state,
so the state `210` had `actions` invoked on it twice: the frontier membership
test of the source compares `Node*` pointers — never states — and a freshly
allocated child is never equal to a queued pointer, so a second node carrying
an already-queued state is enqueued anyway. -/
theorem C5_counterexample :
    (bfsRun riverCrossing 10).2.count 210 = 2 ∧ (2 : Nat) ≠ 1 := by
  rw [bfs_river_explored]
  exact ⟨by decide, by decide⟩

/-- **C5 (amended).** A child node is enqueued only if its state is not in
the `explored` list; the frontier half of the guard compares node identities
(pointers), never excludes a fresh child, and consequently a state *can* be
queued and expanded more than once. -/
theorem C5_theorem : ∀ (p : Problem) (node : Node) (acts : List Int)
    (frontier frontier' : List Node) (explored : List Int) (nid nid' : Nat),
    expand p node acts frontier explored nid = .inr (frontier', nid') →
    ∀ n ∈ frontier', n ∈ frontier ∨ n.state ∉ explored := by
  intro p node acts
  induction acts with
  | nil =>
    intro fr fr' ex nid nid' h n hn
    simp only [expand, Sum.inr.injEq, Prod.mk.injEq] at h
    rw [← h.1] at hn
    exact Or.inl hn
  | cons a rest ih =>
    intro fr fr' ex nid nid' h n hn
    simp only [expand] at h
    split at h
    · rename_i hguard
      split at h
      · exact absurd h (by simp)
      · rcases ih _ _ _ _ _ h n hn with hmem | hnot
        · rcases List.mem_append.mp hmem with h1 | h1
          · exact Or.inl h1
          · have : n = childNode p node a nid := by simpa using h1
            subst this
            exact Or.inr hguard.2
        · exact Or.inr hnot
    · rcases ih _ _ _ _ _ h n hn with hmem | hnot
      · exact Or.inl hmem
      · exact Or.inr hnot

/-- **C5 witness.** The amended enqueue guard evaluated on a concrete
expansion of `chainProblem`: the single child (state `1`) enqueued while
`explored = [0]`. -/
theorem C5_witness :
    childNode chainProblem (mkNode 0 0 none 0) 1 1 ∈ ([] : List Node) ∨
      (childNode chainProblem (mkNode 0 0 none 0) 1 1).state ∉ ([0] : List Int) :=
  C5_theorem chainProblem (mkNode 0 0 none 0) [1] []
    [childNode chainProblem (mkNode 0 0 none 0) 1 1] [0] 1 2 (by decide)
    (childNode chainProblem (mkNode 0 0 none 0) 1 1) (by simp)

/-! ### Claim C4: goal at the initial state -/

/-- Once the goal state sits in `explored`, the in-loop `return` of `BFS` can
no longer fire: the guard demands the child's state be unexplored before the
goal test runs. -/
theorem expand_ne_inl_of_goal_explored {p : Problem} {node : Node} {explored : List Int}
    (hg : p.goal ∈ explored) :
    ∀ (acts : List Int) (frontier : List Node) (nid : Nat) (s : List Int),
      expand p node acts frontier explored nid ≠ .inl s := by
  intro acts
  induction acts with
  | nil => intro fr nid s h; simp [expand] at h
  | cons a rest ih =>
    intro fr nid s h
    simp only [expand] at h
    split at h
    · rename_i hguard
      split at h
      · rename_i hgt
        have : p.goal = (childNode p node a nid).state := by
          simpa [Problem.goal_test, beq_iff_eq] using hgt
        exact hguard.2 (this ▸ hg)
      · exact ih _ _ _ h
    · exact ih _ _ _ h

/-- With the goal already explored the loop can only exit by exhausting the
frontier, returning the pre-loop `solution` value. -/
theorem bfsLoop_fst_of_goal_explored {p : Problem} {sol : List Int} :
    ∀ (fuel : Nat) (frontier : List Node) (explored : List Int) (nid : Nat) (r : List Int),
      p.goal ∈ explored →
      (bfsLoop p sol fuel frontier explored nid).1 = some r → r = sol := by
  intro fuel
  induction fuel with
  | zero =>
    intro fr ex nid r hg h
    match fr with
    | [] => exact (Option.some_injective _ h).symm
    | node :: rest => simp [bfsLoop] at h
  | succ f ih =>
    intro fr ex nid r hg h
    match fr with
    | [] => exact (Option.some_injective _ h).symm
    | node :: rest =>
      rw [bfsLoop] at h
      rcases hE : expand p node (p.actions node.state) rest (ex ++ [node.state]) nid
        with s | ⟨fr', nid'⟩
      · exact absurd hE (expand_ne_inl_of_goal_explored (List.mem_append_left _ hg) _ _ _ _)
      · rw [hE] at h
        exact ih _ _ _ _ (List.mem_append_left _ hg) h

/-- **C4 counterexample.** On a problem whose initial state is the goal,
`BFS` returns the one-element sentinel sequence `[0]`, not the empty
sequence the claim demands. -/
theorem C4_counterexample :
    idleGoalProblem.goal_test idleGoalProblem.initial = true ∧
    BFS idleGoalProblem 2 = some [0] ∧ ([0] : List Int) ≠ [] :=
  ⟨rfl, by decide, by decide⟩

/-- When the initial state passes the goal test and `BFS` terminates, it
returns the one-element sentinel sequence `[0]`: the pre-loop `solution` is
set to the root's sentinel path and the in-loop `return` can never fire
because the initial (= goal) state enters `explored` on the very first
iteration. -/
theorem BFS_goal_at_init : ∀ (p : Problem) (fuel : Nat) (r : List Int),
    p.goal_test p.initial = true → BFS p fuel = some r → r = [0] := by
  intro p fuel r hgt h
  have hgeq : p.goal = p.initial := by
    simpa [Problem.goal_test, beq_iff_eq] using hgt
  match fuel with
  | 0 => simp [BFS, bfsRun, bfsLoop] at h
  | f + 1 =>
    simp only [BFS, bfsRun] at h
    rw [bfsLoop] at h
    have hmem : p.goal ∈ ([] : List Int) ++ [(mkNode p.initial 0 none 0).state] := by
      simp [mkNode, hgeq]
    rcases hE : expand p (mkNode p.initial 0 none 0)
        (p.actions (mkNode p.initial 0 none 0).state) []
        (([] : List Int) ++ [(mkNode p.initial 0 none 0).state]) 1 with s | ⟨fr', nid'⟩
    · exact absurd hE (expand_ne_inl_of_goal_explored hmem _ _ _ _)
    · rw [hE] at h
      have hre := bfsLoop_fst_of_goal_explored f fr' _ nid' r hmem h
      rw [hre]
      simp [mkNode, Node.solution, hgt]

/-- **C4 (amended).** Whenever the initial state passes the goal test and
`BFS` terminates, it returns the one-element sentinel sequence `[0]` — never
the empty failure value. -/
theorem C4_theorem : ∀ (p : Problem) (fuel : Nat) (r : List Int),
    p.goal_test p.initial = true → BFS p fuel = some r → r = [0] :=
  BFS_goal_at_init

/-- **C4 witness.** The amended claim applied to the concrete
`idleGoalProblem` at fuel `2`. -/
theorem C4_witness : ([0] : List Int) = [0] :=
  C4_theorem idleGoalProblem 2 [0] rfl (by decide)

/-! ### Claim C2: counterexample -/

/-- **C2 counterexample.** On the `main` instance `BFS` returns a sequence of
length `8`, while a valid goal-reaching action sequence of length `7`
exists — so the returned length is not the minimum number of actions. -/
theorem C2_counterexample :
    BFS riverCrossing 10 = some (0 :: rcActs) ∧ (0 :: rcActs).length = 8 ∧
    ValidFrom riverCrossing riverCrossing.initial rcActs ∧
    runFrom riverCrossing riverCrossing.initial rcActs = riverCrossing.goal ∧
    rcActs.length = 7 := by
  refine ⟨bfs_river_run, by decide, ?_, ?_, by decide⟩
  · rw [← riverCrossingC_eq]; decide
  · rw [← riverCrossingC_eq]; decide

/-- **C2 (amended).** For every `Problem` on which `BFS` returns a
non-failure value `r`, the length of `r` is the minimum action count over all
valid goal-reaching action sequences *plus one*: the extra leading entry is
the sentinel root action.  (Stated without subtraction: some goal-reaching
valid sequence has length `r.length - 1`, and every goal-reaching valid
sequence has length at least that.) -/
theorem C2_theorem : ∀ (p : Problem) (fuel : Nat) (r : List Int),
    BFS p fuel = some r → r ≠ [] →
    (∃ acts, ValidFrom p p.initial acts ∧
      p.goal_test (runFrom p p.initial acts) = true ∧ r.length = acts.length + 1) ∧
    (∀ acts, ValidFrom p p.initial acts → p.goal_test (runFrom p p.initial acts) = true →
      r.length ≤ acts.length + 1) := by
  intro p fuel r h hne
  have h' : (bfsLoop p
      (if p.goal_test (mkNode p.initial 0 none 0).state
        then (mkNode p.initial 0 none 0).solution else []) fuel
      [mkNode p.initial 0 none 0] [] 1).1 = some r := h
  rcases bfsLoop_some_spec fuel _ _ _ r (inv_init p) h' with hgood | ⟨hr, -⟩
  · obtain ⟨-, ⟨acts, hre, hv, hgt⟩, hmin⟩ := hgood
    exact ⟨⟨acts, hv, hgt, by rw [hre]; simp⟩, hmin⟩
  · by_cases hgt : p.goal_test p.initial = true
    · have hr0 : r = [0] := by
        rw [hr]
        simp [mkNode, Node.solution, hgt]
      subst hr0
      refine ⟨⟨[], trivial, hgt, rfl⟩, ?_⟩
      intro acts _ _
      simp
    · have hgf : p.goal_test p.initial = false := by
        cases hb : p.goal_test p.initial
        · rfl
        · exact absurd hb hgt
      have : r = [] := by
        rw [hr]
        simp [mkNode, Node.solution, hgf]
      exact absurd this hne

/-- **C2 witness.** The amended claim applied to the `main` instance: the
returned sequence `0 :: rcActs` has length `8 = 7 + 1`, and no valid
goal-reaching action sequence is shorter than `7`. -/
theorem C2_witness :
    (∃ acts, ValidFrom riverCrossing riverCrossing.initial acts ∧
      riverCrossing.goal_test (runFrom riverCrossing riverCrossing.initial acts) = true ∧
      ((0 : Int) :: rcActs).length = acts.length + 1) ∧
    (∀ acts, ValidFrom riverCrossing riverCrossing.initial acts →
      riverCrossing.goal_test (runFrom riverCrossing riverCrossing.initial acts) = true →
      ((0 : Int) :: rcActs).length ≤ acts.length + 1) :=
  C2_theorem riverCrossing 10 (0 :: rcActs) bfs_river_run (by decide)

/-! ### Claim C3: counterexample and divergence of the chain problem -/

/-- On `chainProblem` the loop runs forever: every iteration dequeues the
single frontier node (state `k`), pushes `k` to `explored`, and enqueues the
single child with the fresh state `k + 1`. -/
theorem chainProblem_no_exit (sol : List Int) :
    ∀ (fuel : Nat) (n : Node) (explored : List Int) (nid : Nat),
      0 ≤ n.state → (∀ x ∈ explored, x < n.state) →
      (bfsLoop chainProblem sol fuel [n] explored nid).1 = none := by
  intro fuel
  induction fuel with
  | zero => intro n ex nid hk hex; rw [bfsLoop]
  | succ f ih =>
    intro n ex nid hk hex
    rw [bfsLoop]
    have hguard : (∀ m ∈ ([] : List Node), m.id ≠ (childNode chainProblem n 1 nid).id) ∧
        (childNode chainProblem n 1 nid).state ∉ ex ++ [n.state] := by
      refine ⟨by simp, ?_⟩
      have hst : (childNode chainProblem n 1 nid).state = n.state + 1 := rfl
      rw [hst]
      intro hmem
      rcases List.mem_append.mp hmem with h1 | h1
      · exact absurd (hex _ h1) (by omega)
      · simp at h1
    have hgt : chainProblem.goal_test (childNode chainProblem n 1 nid).state = false := by
      have hst : (childNode chainProblem n 1 nid).state = n.state + 1 := rfl
      rw [hst]
      show (chainProblem.goal == n.state + 1) = false
      have : chainProblem.goal = 0 := rfl
      rw [this]
      simp only [beq_eq_false_iff_ne, ne_eq]
      omega
    have hexp : expand chainProblem n (chainProblem.actions n.state) []
        (ex ++ [n.state]) nid =
        .inr ([childNode chainProblem n 1 nid], nid + 1) := by
      show expand chainProblem n [1] [] (ex ++ [n.state]) nid = _
      simp only [expand]
      rw [if_pos hguard, hgt]
      simp [expand]
    rw [hexp]
    apply ih
    · have hst : (childNode chainProblem n 1 nid).state = n.state + 1 := rfl
      rw [hst]; omega
    · intro x hx
      have hst : (childNode chainProblem n 1 nid).state = n.state + 1 := rfl
      rw [hst]
      rcases List.mem_append.mp hx with h1 | h1
      · have := hex _ h1; omega
      · have : x = n.state := by simpa using h1
        omega

/-- `BFS` never returns on the chain problem, whatever the fuel. -/
theorem chainProblem_diverges : ∀ fuel, BFS chainProblem fuel = none := by
  intro fuel
  show (bfsLoop chainProblem _ fuel [mkNode chainProblem.initial 0 none 0] [] 1).1 = none
  exact chainProblem_no_exit _ fuel _ [] 1 (by decide) (by simp)

/-- **C3 counterexample.** Two solvable problems on which the claim fails.
`chainProblem` is solvable (its goal *is* its initial state) yet has an
infinite reachable chain, and `BFS` never terminates on it.  `shiftProblem`
is solvable with a finite reachable space; `BFS` terminates and returns the
sentinel path `[0]`, but folding `[0]` through `result` from the initial
state lands on `5`, which fails the goal test — the sentinel is not a no-op
for an arbitrary `Problem`. -/
theorem C3_counterexample :
    (Reaches chainProblem chainProblem.initial chainProblem.goal ∧
      ¬ ∃ fuel r, BFS chainProblem fuel = some r) ∧
    (Reaches shiftProblem shiftProblem.initial shiftProblem.goal ∧
      BFS shiftProblem 2 = some [0] ∧
      shiftProblem.goal_test (runFrom shiftProblem shiftProblem.initial [0]) = false) := by
  refine ⟨⟨Reaches.refl _ _, ?_⟩, Reaches.refl _ _, by decide, by decide⟩
  rintro ⟨fuel, r, h⟩
  rw [chainProblem_diverges fuel] at h
  exact Option.noConfusion h

/-- The reachable space of the `main` instance is finite (ten states). -/
theorem riverCrossing_finite : FiniteSpace riverCrossing := by
  refine ⟨{15, 165, 45, 225, 180, 75, 30, 210, 90, 240}, ?_⟩
  rintro z ⟨acts, hv, hr⟩
  have hclosed : ∀ s ∈ ([15, 165, 45, 225, 180, 75, 30, 210, 90, 240] : List Int),
      ∀ a ∈ riverCrossing.actions s, riverCrossing.result s a ∈
        ([15, 165, 45, 225, 180, 75, 30, 210, 90, 240] : List Int) := by
    rw [← riverCrossingC_eq]
    decide
  have hz := reach_closure hclosed riverCrossing.initial (by decide) acts hv
  rw [hr] at hz
  simpa using hz

/-- **C3 (amended).** For every solvable `Problem` with a finite reachable
state space, `BFS` terminates, and the returned sequence is the sentinel `0`
followed by an action list whose fold through `result` from the initial
state satisfies the goal test. -/
theorem C3_theorem : ∀ p : Problem, FiniteSpace p → Reaches p p.initial p.goal →
    ∃ fuel r', BFS p fuel = some (0 :: r') ∧
      p.goal_test (runFrom p p.initial r') = true := by
  intro p hfin hreach
  obtain ⟨fuel, r, h⟩ := bfs_terminates hfin
  have h' : (bfsLoop p
      (if p.goal_test (mkNode p.initial 0 none 0).state
        then (mkNode p.initial 0 none 0).solution else []) fuel
      [mkNode p.initial 0 none 0] [] 1).1 = some r := h
  rcases bfsLoop_some_spec fuel _ _ _ r (inv_init p) h'
    with hgood | ⟨hr, ex, hinit, hng, hclosed⟩
  · obtain ⟨-, ⟨acts, hre, hv, hgt⟩, -⟩ := hgood
    exact ⟨fuel, acts, by rw [← hre]; exact h, hgt⟩
  · obtain ⟨acts, hv, hrun⟩ := hreach
    have hgoal_ex : p.goal ∈ ex := hrun ▸ reach_closure hclosed _ hinit acts hv
    have hgeq : p.goal = p.initial := by
      rcases hng _ hgoal_ex with h1 | h1
      · exact h1
      · exact absurd rfl h1
    have hgt : p.goal_test p.initial = true := by
      simp [Problem.goal_test, hgeq]
    have hr0 : r = [0] := by
      rw [hr]
      simp [mkNode, Node.solution, hgt]
    subst hr0
    exact ⟨fuel, [], h, hgt⟩

/-- **C3 witness.** The amended claim applied to the `main` instance, which
is solvable and has a finite reachable space. -/
theorem C3_witness :
    ∃ fuel r', BFS riverCrossing fuel = some (0 :: r') ∧
      riverCrossing.goal_test (runFrom riverCrossing riverCrossing.initial r') = true :=
  C3_theorem riverCrossing riverCrossing_finite
    ⟨rcActs, by rw [← riverCrossingC_eq]; decide, by rw [← riverCrossingC_eq]; decide⟩

/-! ### Claim C6: counterexample -/

/-- **C6 counterexample.** The claim describes the value returned when the
initial state is the goal as the "empty-path success"; on such an instance
the code actually returns the one-element sentinel path `[0]`, not the empty
deque (the empty deque is what the exhausted-frontier branch returns). -/
theorem C6_counterexample :
    echoProblem.goal_test echoProblem.initial = true ∧
    BFS echoProblem 2 = some [0] ∧ some ([0] : List Int) ≠ some ([] : List Int) :=
  ⟨rfl, by decide, by decide⟩

/-- **C6 (amended).** For every `Problem` whose goal state is unreachable
from the initial state and whose reachable space is finite, `BFS` terminates
and returns the empty sequence as the failure indicator; and that value is
distinguishable from what is returned whenever a problem's initial state is
its goal, namely the (nonempty) one-element sentinel sequence `[0]`. -/
theorem C6_theorem : ∀ p : Problem, FiniteSpace p → ¬ Reaches p p.initial p.goal →
    (∃ fuel, BFS p fuel = some []) ∧
    (∀ (q : Problem) (fuel : Nat) (r : List Int),
      q.goal_test q.initial = true → BFS q fuel = some r → r ≠ []) := by
  intro p hfin hunreach
  constructor
  · obtain ⟨fuel, r, h⟩ := bfs_terminates hfin
    have h' : (bfsLoop p
        (if p.goal_test (mkNode p.initial 0 none 0).state
          then (mkNode p.initial 0 none 0).solution else []) fuel
        [mkNode p.initial 0 none 0] [] 1).1 = some r := h
    rcases bfsLoop_some_spec fuel _ _ _ r (inv_init p) h' with hgood | ⟨hr, -⟩
    · obtain ⟨-, ⟨acts, -, hv, hgt⟩, -⟩ := hgood
      have : p.goal = runFrom p p.initial acts := by
        simpa [Problem.goal_test, beq_iff_eq] using hgt
      exact absurd ⟨acts, hv, this.symm⟩ hunreach
    · have hgf : p.goal_test p.initial = false := by
        cases hb : p.goal_test p.initial
        · rfl
        · have hgeq : p.goal = p.initial := by
            simpa [Problem.goal_test, beq_iff_eq] using hb
          exact absurd ⟨[], trivial, hgeq.symm⟩ hunreach
      have hr0 : r = [] := by
        rw [hr]
        simp [mkNode, Node.solution, hgf]
      subst hr0
      exact ⟨fuel, h⟩
  · intro q fuel r hq hB
    have := BFS_goal_at_init q fuel r hq hB
    subst this
    simp

/-- `stuckProblem` has a finite reachable space (just its initial state). -/
theorem stuckProblem_finite : FiniteSpace stuckProblem := by
  refine ⟨{0}, ?_⟩
  rintro z ⟨acts, hv, hr⟩
  match acts with
  | [] =>
    rw [← hr]
    simp [runFrom, stuckProblem]
  | a :: rest => exact absurd hv.1 (List.not_mem_nil a)

/-- The goal of `stuckProblem` is unreachable. -/
theorem stuckProblem_unreachable :
    ¬ Reaches stuckProblem stuckProblem.initial stuckProblem.goal := by
  rintro ⟨acts, hv, hr⟩
  match acts with
  | [] => exact absurd hr (by decide)
  | a :: rest => exact absurd hv.1 (List.not_mem_nil a)

/-- **C6 witness.** The amended claim applied to the concrete
`stuckProblem`. -/
theorem C6_witness :
    (∃ fuel, BFS stuckProblem fuel = some []) ∧
    (∀ (q : Problem) (fuel : Nat) (r : List Int),
      q.goal_test q.initial = true → BFS q fuel = some r → r ≠ []) :=
  C6_theorem stuckProblem stuckProblem_finite stuckProblem_unreachable

/-! ### Claim C10: the bank-bit invariant -/

set_option maxRecDepth 4096 in
/-- Over the byte range, `validState` pins the sixteen legal configurations. -/
theorem validState_mem_sixteen {s : Int} (h : validState s) : s ∈ sixteenStates := by
  have h0 : 0 ≤ s := h.1
  have h256 : s < 256 := h.2.1
  have hn : s.toNat < 256 := by omega
  have hs : (s.toNat : Int) = s := Int.toNat_of_nonneg h0
  have key : ∀ n : Nat, n < 256 → validState (n : Int) → (n : Int) ∈ sixteenStates := by
    decide
  have := key s.toNat hn (by rw [hs]; exact h)
  rwa [hs] at this

/-- Each of the eight move codes preserves `validState`. -/
theorem sixteen_preserved : ∀ s ∈ sixteenStates, ∀ a ∈ moveCodes,
    validState (riverResult s a) := by
  rw [← riverResultC_eq]
  decide

/-- Every transition the action table offers lands in a `validState`. -/
theorem riverStep_valid : ∀ s ∈ riverStates, ∀ a ∈ riverActions s,
    validState (riverResult s a) := by
  rw [← riverResultC_eq]
  decide

/-- Valid action sequences preserve `validState` along the whole run. -/
theorem reach_valid : ∀ (acts : List Int) (s : Int), validState s →
    ValidFrom riverCrossing s acts → validState (runFrom riverCrossing s acts) := by
  intro acts
  induction acts with
  | nil => intro s hv _; exact hv
  | cons a rest ih =>
    intro s hv hva
    obtain ⟨ha, hrest⟩ := hva
    refine ih _ ?_ hrest
    by_cases hmem : s ∈ riverStates
    · exact riverStep_valid s hmem a ha
    · rw [show riverCrossing.actions s = riverActions s from rfl,
        riverActions_eq_nil hmem] at ha
      exact absurd ha (List.not_mem_nil a)

/-- **C10.** Every state reachable from the initial state `RPCGW = 0x0F`
through legal actions keeps, for each of the four entities, exactly one of
its two bank bits set (and stays in the low byte); and each of the eight move
codes preserves this invariant from any state satisfying it. -/
theorem C10_theorem :
    (∀ z, Reaches riverCrossing riverCrossing.initial z → validState z) ∧
    (∀ s a, validState s → a ∈ moveCodes → validState (riverCrossing.result s a)) := by
  constructor
  · rintro z ⟨acts, hv, hr⟩
    rw [← hr]
    exact reach_valid acts _ (by decide) hv
  · intro s a hv ha
    exact sixteen_preserved s (validState_mem_sixteen hv) a ha

/-- **C10 witness.** The invariant evaluated on the first move of the run
(`RPCGW` plus the move `LP|LG = 160` giving `PGRCW = 165`). -/
theorem C10_witness :
    validState 165 ∧ validState (riverCrossing.result 15 160) :=
  ⟨C10_theorem.1 165 ⟨[160], by decide, by rw [← riverCrossingC_eq]; decide⟩,
   C10_theorem.2 15 160 (by decide) (by decide)⟩

end DynamicBFS
